import Mathlib

/-!
Verification development for the rich-text rendering pipeline in
`src/adapters/tui/md.rs` of the asana-cli repository.

The Rust code is shallowly embedded here.  Text is modelled as `List Char`
(`Str`), so Rust's byte-indexed string operations become character-list
operations; every place where a byte index is observable the surrounding
check restricts it to ASCII, where the two coincide.  Machine integers
(`u16`, `u64`, `usize`) are modelled as `Nat`: the embedded code only
compares and adds them well below any overflow boundary.

External crates are modelled at their interface:
  * `unicode_width` is modelled by `charWidth` (zero-width controls and
    combining marks, double-width East-Asian blocks, width one otherwise);
  * `kuchiki` (HTML5 parsing/serialisation) appears as an `HtmlEnv` record
    of a parse and a serialisation function plus the success flag of the
    constant `"ul, ol"` selector — only the tree-repair algorithm between
    those calls is repository code and it is embedded in full;
  * `htmd`'s converter appears as a `Str → Option Str` parameter
    (`none` models the `Err` branch);
  * `pulldown_cmark` appears as the `List MdEvent` input of the
    structural parser, mirroring the `Event`/`Tag`/`TagEnd` constructors
    the Rust code matches on.
-/

/-! ## Text model -/

/-- Characters of a Rust `String`, in order. -/
abbrev Str := List Char

/-- Model of Rust `char::is_whitespace` (Unicode `White_Space`). -/
def rustIsWhitespace (c : Char) : Bool :=
  let n := c.toNat
  (0x09 ≤ n && n ≤ 0x0D) || n == 0x20 || n == 0x85 || n == 0xA0 || n == 0x1680 ||
  (0x2000 ≤ n && n ≤ 0x200A) || n == 0x2028 || n == 0x2029 || n == 0x202F ||
  n == 0x205F || n == 0x3000

/-- Model of the external `unicode_width` crate's per-character display
width: control characters and combining marks have width 0, the wide
East-Asian blocks have width 2, everything else width 1. -/
def charWidth (c : Char) : Nat :=
  let n := c.toNat
  if n < 0x20 then 0
  else if 0x7F ≤ n && n < 0xA0 then 0
  else if 0x300 ≤ n && n ≤ 0x36F then 0
  else if (0x1100 ≤ n && n ≤ 0x115F) || (0x2E80 ≤ n && n ≤ 0x303E) ||
          (0x3041 ≤ n && n ≤ 0x33FF) || (0x3400 ≤ n && n ≤ 0x4DBF) ||
          (0x4E00 ≤ n && n ≤ 0x9FFF) || (0xAC00 ≤ n && n ≤ 0xD7A3) ||
          (0xF900 ≤ n && n ≤ 0xFAFF) || (0xFF00 ≤ n && n ≤ 0xFF60) ||
          (0xFFE0 ≤ n && n ≤ 0xFFE6) then 2
  else 1

/-- Model of `unicode_width::UnicodeWidthStr::width`. -/
def uwidth (s : Str) : Nat := (s.map charWidth).sum

/-- Model of `" ".repeat(n)`. -/
def spacesS (n : Nat) : Str := List.replicate n ' '

/-- Model of Rust `str::trim_start` (drop leading Unicode whitespace). -/
def trimStart (s : Str) : Str := s.dropWhile rustIsWhitespace

/-- Model of Rust `str::trim` (drop leading and trailing Unicode whitespace). -/
def rustTrim (s : Str) : Str := ((trimStart s).reverse.dropWhile rustIsWhitespace).reverse

/-! ## Style model (the ratatui style fields the source uses) -/

/-- The `ratatui` colours used by `md.rs`. -/
inductive Color where
  | black | white | gray | cyan | blue | magenta | yellow
  deriving DecidableEq, Repr

/-- The `ratatui` modifier flags used by `md.rs`. -/
structure Modifiers where
  bold : Bool := false
  italic : Bool := false
  underlined : Bool := false
  crossedOut : Bool := false
  deriving DecidableEq, Repr

/-- Model of `ratatui::style::Style` restricted to the fields `md.rs`
sets or compares. -/
structure Style where
  fg : Option Color := none
  bg : Option Color := none
  mods : Modifiers := {}
  deriving DecidableEq, Repr

/-- First-some choice, as in `Option::or`. -/
def optOr : Option α → Option α → Option α
  | some a, _ => some a
  | none, b => b

/-- Union of modifier flag sets (`Modifier` bitflags or-ed together). -/
def Modifiers.union (a b : Modifiers) : Modifiers :=
  ⟨a.bold || b.bold, a.italic || b.italic,
   a.underlined || b.underlined, a.crossedOut || b.crossedOut⟩

/-- Model of `ratatui` `Style::patch`: fields set in the second style
override the first, modifiers accumulate. -/
def Style.patch (a b : Style) : Style :=
  ⟨optOr b.fg a.fg, optOr b.bg a.bg, a.mods.union b.mods⟩

/-- The fold `for s in &emphasis_stack { style = style.patch(*s) }`. -/
def foldStyles (stack : List Style) : Style :=
  stack.foldl Style.patch {}

/-- Model of `ratatui::text::Span`. -/
structure Span where
  content : Str
  style : Style
  deriving DecidableEq, Repr

/-- Model of `Span::raw` (default style). -/
def Span.raw (s : Str) : Span := ⟨s, {}⟩

/-- Model of `ratatui::text::Line` (its list of spans). -/
structure RLine where
  spans : List Span
  deriving DecidableEq, Repr

/-- The `MarkdownLine` struct of `md.rs`. -/
structure MarkdownLine where
  line : RLine
  is_code_block : Bool
  deriving DecidableEq, Repr

/-- The `WordSpan` struct of `md.rs`. -/
structure WordSpan where
  content : Str
  style : Style
  is_whitespace : Bool
  deriving DecidableEq, Repr

/-- Concatenated visible text of a line
(`line.spans.iter().map(|s| s.content).collect()`). -/
def textOfLine (l : RLine) : Str := (l.spans.map (fun s => s.content)).flatten

/-- Display width of a line's visible text. -/
def uwidthL (l : RLine) : Nat := uwidth (textOfLine l)

/-! ## split_line_into_words -/

/-- Accumulates one maximal run of characters of the whitespace class
`cls`; on a class change the finished run is emitted.  This is the loop
body of `split_line_into_words` in `md.rs`, which cuts each span's
content into maximal whitespace / non-whitespace runs. -/
def runsAux (cls : Bool) (acc : Str) : Str → List (Str × Bool)
  | [] => [(acc.reverse, cls)]
  | c :: rest =>
    if rustIsWhitespace c == cls then runsAux cls (c :: acc) rest
    else (acc.reverse, cls) :: runsAux (rustIsWhitespace c) [c] rest

/-- Maximal whitespace / non-whitespace runs of a span's content, each
tagged with its whitespace class. -/
def charRuns : Str → List (Str × Bool)
  | [] => []
  | c :: rest => runsAux (rustIsWhitespace c) [c] rest

/-- The `split_line_into_words` function of `md.rs`. -/
def split_line_into_words (l : RLine) : List WordSpan :=
  (l.spans.map (fun sp =>
    (charRuns sp.content).map (fun r => WordSpan.mk r.1 sp.style r.2))).flatten

/-! ## calculate_continuation_indent -/

/-- Leading-whitespace width loop of `calculate_continuation_indent`:
a space counts 1, a tab counts 4, anything else stops the count. -/
def leadingIndentWidth : Str → Nat
  | [] => 0
  | c :: r =>
    if c = ' ' then 1 + leadingIndentWidth r
    else if c = '\t' then 4 + leadingIndentWidth r
    else 0

/-- Model of `trimmed.find(". ")`: index of the first occurrence of the
two-character pattern.  The Rust `find` returns a byte offset; the value
is only consumed after an all-ASCII-digit check on the text before it,
where byte and character offsets agree. -/
def findDotSpace : Str → Option Nat
  | [] => none
  | c :: r =>
    if c = '.' ∧ r.head? = some ' ' then some 0
    else (findDotSpace r).map (· + 1)

/-- Model of `char::is_ascii_digit` (code point between `'0'` and `'9'`). -/
def isAsciiDigit (c : Char) : Bool := 0x30 ≤ c.toNat && c.toNat ≤ 0x39

/-- The three `starts_with` bullet-marker checks of
`calculate_continuation_indent` (`"• "`, `"- "`, `"* "`). -/
def bulletStart (s : Str) : Bool :=
  match s with
  | c :: d :: _ => (c == '•' || c == '-' || c == '*') && d == ' '
  | _ => false

/-- The `calculate_continuation_indent` function of `md.rs`. -/
def calculate_continuation_indent (l : RLine) : Nat :=
  let text := textOfLine l
  let indent := leadingIndentWidth text
  let trimmed := trimStart text
  if bulletStart trimmed then indent + 2
  else
    match findDotSpace trimmed with
    | some dotPos =>
      if (trimmed.take dotPos).all isAsciiDigit then indent + dotPos + 2 else indent
    | none => indent

/-! ## words_to_spans -/

/-- Builds a span from the accumulated content: `Span::styled` when a
style was recorded, `Span::raw` otherwise. -/
def mkSpanOf (content : Str) (sty : Option Style) : Span :=
  match sty with
  | some st => ⟨content, st⟩
  | none => Span.raw content

/-- Main loop of `words_to_spans`: skips leading whitespace words on
continuation lines, merges consecutive words of identical style into one
span, and flushes the accumulator on a style change. -/
def wtsGo (first : Bool) (cur : Str) (sty : Option Style) : List WordSpan → List Span
  | [] => if cur.isEmpty then [] else [mkSpanOf cur sty]
  | wd :: ws =>
    if !first && cur.isEmpty && wd.is_whitespace then wtsGo first cur sty ws
    else if sty = some wd.style then wtsGo first (cur ++ wd.content) sty ws
    else
      (if cur.isEmpty then [] else [mkSpanOf cur sty]) ++ wtsGo first wd.content (some wd.style) ws

/-- The `words_to_spans` function of `md.rs`. -/
def words_to_spans (words : List WordSpan) (is_first_line : Bool)
    (continuation_indent : Nat) : List Span :=
  (if ¬is_first_line ∧ 0 < continuation_indent
   then [Span.raw (spacesS continuation_indent)] else [])
    ++ wtsGo is_first_line [] none words

/-! ## wrap_single_line -/

/-- Display width of one word (`word.content.width()`). -/
def wsWidth (w : WordSpan) : Nat := uwidth w.content

/-- The greedy accumulation loop of `wrap_single_line`: `cur` is
`current_line_words`, `cw` is `current_width`, `first` is
`is_first_line`; a word that would overflow the available width closes
the current display line.  `max_width - cind` is Rust's
`saturating_sub`, which is Nat subtraction. -/
def wrapGo (max_width cind : Nat) :
    List WordSpan → List WordSpan → Nat → Bool → List MarkdownLine
  | [], cur, _, first =>
    if cur.isEmpty then [] else [⟨⟨words_to_spans cur first cind⟩, false⟩]
  | wd :: ws, cur, cw, first =>
    let ww := wsWidth wd
    let avail := if first then max_width else max_width - cind
    if avail < cw + ww ∧ ¬cur.isEmpty then
      ⟨⟨words_to_spans cur first cind⟩, false⟩ :: wrapGo max_width cind ws [wd] ww false
    else
      wrapGo max_width cind ws (cur ++ [wd]) (cw + ww) first

/-- The `wrap_single_line` function of `md.rs`. -/
def wrap_single_line (line : MarkdownLine) (max_width : Nat)
    (continuation_indent : Nat) : List MarkdownLine :=
  if line.is_code_block ∨ max_width < 10 then [line]
  else
    let words := split_line_into_words line.line
    if words.isEmpty then [line]
    else
      let result := wrapGo max_width continuation_indent words [] 0 true
      if result.isEmpty then [line] else result

/-- The `wrap_markdown_lines` function of `md.rs`. -/
def wrap_markdown_lines (lines : List MarkdownLine) (width : Nat) : List MarkdownLine :=
  (lines.map (fun l => wrap_single_line l width (calculate_continuation_indent l.line))).flatten

/-! ## fix_nested_lists -/

/-- Node of the HTML DOM `kuchiki` hands to `fix_nested_lists`. -/
inductive HNode where
  | elem (name : String) (children : List HNode)
  | text (s : String)
  deriving Repr

/-- Is the node a `ul` or `ol` element. -/
def isListE : HNode → Bool
  | .elem n _ => n == "ul" || n == "ol"
  | _ => false

/-- Is the node an `li` element. -/
def isLiE : HNode → Bool
  | .elem n _ => n == "li"
  | _ => false

/-- Re-attach the collected offending list children `seg.filter isListE`
as the last children of the list item `c`
(`li_node.append(list_node)` in document order). -/
def liAbsorb (c : HNode) (seg : List HNode) : HNode :=
  match c with
  | .elem n kids => .elem n (kids ++ seg.filter isListE)
  | t => t

/-- One step of the right-to-left sweep over the children of a list
element.  The state is the still-unclaimed segment to the right of the
current position together with the finished part: a list item claims
every list element of its segment (they were its following siblings with
no closer preceding `li`), everything else stays in place. -/
def rstep (c : HNode) (st : List HNode × List HNode) : List HNode × List HNode :=
  if isLiE c then
    ([], liAbsorb c st.1 :: (st.1.filter (fun x => !isListE x) ++ st.2))
  else (c :: st.1, st.2)

/-- Child-list repair of one list element: every list child is moved to
the end of its nearest preceding `li` sibling; list children with no
preceding `li` stay in place.  This reproduces the collect-then-apply
loop of `fix_nested_lists` in `md.rs`, whose fix decisions are all made
on the original tree. -/
def regroup (l : List HNode) : List HNode :=
  let st := l.foldr rstep ([], [])
  st.1 ++ st.2

/-- Recursive tree repair: repair all descendants, then regroup the
children of every `ul`/`ol` element. -/
def fixNodes : List HNode → List HNode
  | [] => []
  | .text s :: rest => .text s :: fixNodes rest
  | .elem n kids :: rest =>
    (if n == "ul" || n == "ol" then HNode.elem n (regroup (fixNodes kids))
     else HNode.elem n (fixNodes kids)) :: fixNodes rest

/-- Tree-level `fix_nested_lists`: the DOM transformation the function
performs between `kuchiki::parse_html` and `document.to_string()`. -/
def fixNode (t : HNode) : HNode :=
  match t with
  | .text s => .text s
  | .elem n kids =>
    if n == "ul" || n == "ol" then .elem n (regroup (fixNodes kids))
    else .elem n (fixNodes kids)

/-- Interface of the external `kuchiki` crate: an HTML5 parse function,
a DOM serialisation function, and whether the constant `"ul, ol"`
selector compiles (the `Err` branch of `document.select`). -/
structure HtmlEnv where
  parseHtml : Str → HNode
  toStr : HNode → Str
  selectOk : Bool

/-- The `fix_nested_lists` function of `md.rs`, with the external HTML
library abstracted as `env`: on selector failure the original string is
returned, otherwise the parsed tree is repaired and re-serialised. -/
def fix_nested_lists (env : HtmlEnv) (html : Str) : Str :=
  if env.selectOk then env.toStr (fixNode (env.parseHtml html)) else html

/-! ## wrap_pre_with_code and html_to_markdown -/

/-- Left-to-right replacement of every `<pre>` by `<pre><code>`
(first `replace` call of `wrap_pre_with_code`). -/
def replacePreOpen : Str → Str
  | '<' :: 'p' :: 'r' :: 'e' :: '>' :: rest => "<pre><code>".data ++ replacePreOpen rest
  | c :: rest => c :: replacePreOpen rest
  | [] => []

/-- Left-to-right replacement of every `</pre>` by `</code></pre>`
(second `replace` call of `wrap_pre_with_code`). -/
def replacePreClose : Str → Str
  | '<' :: '/' :: 'p' :: 'r' :: 'e' :: '>' :: rest => "</code></pre>".data ++ replacePreClose rest
  | c :: rest => c :: replacePreClose rest
  | [] => []

/-- The `wrap_pre_with_code` function of `md.rs`. -/
def wrap_pre_with_code (html : Str) : Str := replacePreClose (replacePreOpen html)

/-! ## replace_markdown_images -/

/-- Scanner state of `replace_markdown_images`: outside any candidate,
just after a `!` (the Rust peek at `[`), inside the alt text of `![...`,
just after the closing `]`, or inside the parenthesised URL with its
nesting depth. -/
inductive ImgSt where
  | normal
  | bang
  | alt (acc : Str)
  | postAlt (acc : Str)
  | url (acc : Str) (depth : Nat)
  deriving DecidableEq, Repr

/-- Placeholder emitted for an image: `[Image]` for empty alt text,
`[Image: alt]` otherwise. -/
def imgPlaceholder (alt : Str) : Str :=
  if alt.isEmpty then "[Image]".data
  else "[Image: ".data ++ alt ++ [']']

/-- Literal text restored when a candidate turns out not to be an image:
the consumed `![`, the alt text, and the `]` if one was found. -/
def imgLiteral (alt : Str) (closed : Bool) : Str :=
  '!' :: '[' :: alt ++ (if closed then [']'] else [])

/-- End-of-input behaviour of each scanner state: a lone trailing `!`
is restored, an unterminated alt text is restored literally, an
unterminated URL still produces the placeholder (the Rust URL loop
simply runs out of characters). -/
def imgFinish : ImgSt → Str
  | .normal => []
  | .bang => ['!']
  | .alt acc => imgLiteral acc false
  | .postAlt acc => imgLiteral acc true
  | .url acc _ => imgPlaceholder acc

/-- Character-by-character scanner of `replace_markdown_images`, with
the nested consume loops of the Rust code flattened into one state
machine over the remaining input.  The Rust peeks (`!` followed by `[`,
and `]` followed by `(`) become the `bang` and `postAlt` states. -/
def repImg : ImgSt → Str → Str
  | st, [] => imgFinish st
  | .normal, c :: rest =>
    if c = '!' then repImg .bang rest
    else c :: repImg .normal rest
  | .bang, c :: rest =>
    if c = '[' then repImg (.alt []) rest
    else if c = '!' then '!' :: repImg .bang rest
    else '!' :: c :: repImg .normal rest
  | .alt acc, c :: rest =>
    if c = ']' then repImg (.postAlt acc) rest
    else repImg (.alt (acc ++ [c])) rest
  | .postAlt acc, c :: rest =>
    if c = '(' then repImg (.url acc 1) rest
    else if c = '!' then imgLiteral acc true ++ repImg .bang rest
    else imgLiteral acc true ++ c :: repImg .normal rest
  | .url acc d, c :: rest =>
    if c = '(' then repImg (.url acc (d + 1)) rest
    else if c = ')' then
      (if d = 1 then imgPlaceholder acc ++ repImg .normal rest
       else repImg (.url acc (d - 1)) rest)
    else repImg (.url acc d) rest

/-- The `replace_markdown_images` function of `md.rs`. -/
def replace_markdown_images (s : Str) : Str := repImg .normal s

/-- The `html_to_markdown` function of `md.rs`; the external `htmd`
converter is the `convert` parameter, `none` modelling its `Err` case. -/
def html_to_markdown (env : HtmlEnv) (convert : Str → Option Str) (html : Str) : Str :=
  if (rustTrim html).isEmpty then []
  else
    let pre_wrapped := wrap_pre_with_code html
    let fixed_html := fix_nested_lists env pre_wrapped
    match convert fixed_html with
    | some markdown => rustTrim (replace_markdown_images markdown)
    | none => html

/-! ## parse_markdown_to_marked_lines -/

/-- The `ListInfo` struct of `parse_markdown_to_marked_lines`. -/
structure ListInfo where
  is_ordered : Bool
  indent_level : Nat
  next_number : Nat
  deriving DecidableEq, Repr

/-- `pulldown_cmark::HeadingLevel`. -/
inductive HeadingLevel where
  | h1 | h2 | h3 | h4 | h5 | h6
  deriving DecidableEq, Repr

/-- The `pulldown_cmark::Tag` constructors `md.rs` matches on, carrying
the fields it reads. -/
inductive MdTag where
  | paragraph
  | heading (level : HeadingLevel)
  | list (startNum : Option Nat)
  | item
  | codeBlock
  | emphasis
  | strong
  | strikethrough
  | link (dest_url : Str)
  | image (dest_url : Str)
  | blockQuote
  | table
  | tableHead
  | tableRow
  | tableCell
  deriving DecidableEq, Repr

/-- The `pulldown_cmark::TagEnd` constructors `md.rs` matches on. -/
inductive MdTagEnd where
  | paragraph
  | heading
  | list
  | item
  | codeBlock
  | emphasis
  | strong
  | strikethrough
  | link
  | image
  | blockQuote
  | table
  | tableHead
  | tableRow
  | tableCell
  deriving DecidableEq, Repr

/-- The `pulldown_cmark::Event` stream consumed by the structural
parser; the markdown-to-event parsing itself is the external
`pulldown_cmark` crate. -/
inductive MdEvent where
  | start (tag : MdTag)
  | stop (tag : MdTagEnd)
  | text (s : Str)
  | code (s : Str)
  | softBreak
  | hardBreak
  | rule
  | footnoteReference (name : Str)
  | taskListMarker (checked : Bool)
  deriving DecidableEq, Repr

/-- The mutable state threaded through the event loop of
`parse_markdown_to_marked_lines`.  The Rust `Vec` stacks push and pop at
the end, so the top of each stack is the last list element. -/
structure ParseState where
  lines : List MarkdownLine
  current_line_spans : List Span
  in_code_block : Bool
  list_stack : List ListInfo
  emphasis_stack : List Style
  link_destination : Option Str
  deriving DecidableEq, Repr

/-- Initial parser state. -/
def initParseState : ParseState := ⟨[], [], false, [], [], none⟩

/-- The `finish_line` closure: pushes the buffered spans as one marked
line (if any) and clears the buffer. -/
def finish_line (st : ParseState) (is_code : Bool) : ParseState :=
  if st.current_line_spans.isEmpty then st
  else { st with lines := st.lines ++ [⟨⟨st.current_line_spans⟩, is_code⟩],
                 current_line_spans := [] }

/-- The blank separator line `Line::from(vec![Span::raw("")])`. -/
def blankLine : MarkdownLine := ⟨⟨[Span.raw []]⟩, false⟩

/-- The `add_blank_line` closure. -/
def add_blank_line (st : ParseState) : ParseState :=
  { st with lines := st.lines ++ [blankLine] }

/-- Header style selected per heading level. -/
def headerStyle : HeadingLevel → Style
  | .h1 => { fg := some .cyan, mods := { bold := true } }
  | .h2 => { fg := some .blue, mods := { bold := true } }
  | .h3 => { fg := some .magenta, mods := { bold := true } }
  | _ => { fg := some .yellow, mods := { bold := true } }

/-- Model of Rust `"...".split('\n').collect()`. -/
def splitNl : Str → List Str
  | [] => [[]]
  | c :: rest =>
    if c = '\n' then [] :: splitNl rest
    else
      match splitNl rest with
      | [] => [[c]]
      | l :: ls => (c :: l) :: ls

/-- Pad a code line with trailing spaces up to the caller-supplied width
(character count, as in the Rust `chars().count()` comparison). -/
def padToWidth (width : Option Nat) (lineText : Str) : Str :=
  match width with
  | some w => if lineText.length < w then lineText ++ spacesS (w - lineText.length) else lineText
  | none => lineText

/-- In-code-block handling of a text event: split on newlines and emit
each part immediately as its own code-block marked line, skipping empty
parts unless the split produced exactly one part, padding to the width,
on a black background. -/
def emitCodeLines (width : Option Nat) (style : Style) (st : ParseState) (t : Str) : ParseState :=
  let code_lines := splitNl t
  code_lines.foldl (fun acc line_text =>
    if !line_text.isEmpty || code_lines.length == 1 then
      { acc with lines := acc.lines ++
        [⟨⟨[⟨padToWidth width line_text, { style with bg := some .black }⟩]⟩, true⟩] }
    else acc) st

/-- One iteration of the event loop of `parse_markdown_to_marked_lines`,
transcribed case by case from the Rust `match event`. -/
def processEvent (width : Option Nat) (st : ParseState) : MdEvent → ParseState
  | .start tag =>
    match tag with
    | .paragraph => st
    | .heading level =>
      { st with emphasis_stack := st.emphasis_stack ++ [headerStyle level] }
    | .list startNum =>
      let indent_level := st.list_stack.length * 2
      { st with list_stack :=
          st.list_stack ++ [⟨startNum.isSome, indent_level, startNum.getD 1⟩] }
    | .item =>
      let st := finish_line st false
      match st.list_stack.getLast? with
      | some list_info =>
        let indent := spacesS list_info.indent_level
        if list_info.is_ordered then
          { st with
            current_line_spans := st.current_line_spans ++
              [Span.raw (indent ++ Nat.toDigits 10 list_info.next_number ++ ". ".data)],
            list_stack := st.list_stack.dropLast ++
              [{ list_info with next_number := list_info.next_number + 1 }] }
        else
          { st with current_line_spans :=
              st.current_line_spans ++ [Span.raw (indent ++ "• ".data)] }
      | none => st
    | .codeBlock => finish_line { st with in_code_block := true } false
    | .emphasis =>
      { st with emphasis_stack := st.emphasis_stack ++ [{ mods := { italic := true } }] }
    | .strong =>
      { st with emphasis_stack := st.emphasis_stack ++ [{ mods := { bold := true } }] }
    | .strikethrough =>
      { st with emphasis_stack := st.emphasis_stack ++ [{ mods := { crossedOut := true } }] }
    | .link dest =>
      { st with link_destination := some dest,
                emphasis_stack := st.emphasis_stack ++
                  [{ fg := some .blue, mods := { underlined := true } }] }
    | .image dest => { st with link_destination := some dest }
    | .blockQuote =>
      { st with
        current_line_spans :=
          st.current_line_spans ++ [Span.mk "│ ".data { fg := some .gray }]
        emphasis_stack := st.emphasis_stack ++
          [{ fg := some .gray, mods := { italic := true } }] }
    | .table => st
    | .tableHead => st
    | .tableRow => st
    | .tableCell => st
  | .stop tag =>
    match tag with
    | .paragraph => add_blank_line (finish_line st false)
    | .heading =>
      add_blank_line (finish_line
        { st with emphasis_stack := st.emphasis_stack.dropLast } false)
    | .list =>
      let st := finish_line st false
      let st := { st with list_stack := st.list_stack.dropLast }
      if st.list_stack.isEmpty then add_blank_line st else st
    | .item => st
    | .codeBlock => add_blank_line { st with in_code_block := false }
    | .emphasis => { st with emphasis_stack := st.emphasis_stack.dropLast }
    | .strong => { st with emphasis_stack := st.emphasis_stack.dropLast }
    | .strikethrough => { st with emphasis_stack := st.emphasis_stack.dropLast }
    | .link =>
      { st with link_destination := none,
                emphasis_stack := st.emphasis_stack.dropLast }
    | .image =>
      let lastHasBracket : Bool :=
        match st.current_line_spans.getLast? with
        | some s => s.content.contains '['
        | none => false
      let st :=
        if st.link_destination.isSome then
          if st.current_line_spans.isEmpty || !lastHasBracket then
            { st with current_line_spans :=
                st.current_line_spans ++ [Span.raw "[Image]".data] }
          else st
        else st
      { st with link_destination := none }
    | .blockQuote =>
      add_blank_line (finish_line
        { st with emphasis_stack := st.emphasis_stack.dropLast } false)
    | .table => st
    | .tableHead => st
    | .tableRow => finish_line st false
    | .tableCell =>
      { st with current_line_spans := st.current_line_spans ++ [Span.raw " | ".data] }
  | .text t =>
    if st.link_destination.isSome ∧ ¬st.emphasis_stack.isEmpty then
      { st with current_line_spans :=
          st.current_line_spans ++ [⟨t, foldStyles st.emphasis_stack⟩] }
    else
      let style := foldStyles st.emphasis_stack
      if st.in_code_block then emitCodeLines width style st t
      else { st with current_line_spans := st.current_line_spans ++ [⟨t, style⟩] }
  | .code c =>
    { st with current_line_spans :=
        st.current_line_spans ++ [⟨c, { fg := some .white, bg := some .black }⟩] }
  | .softBreak => finish_line st false
  | .hardBreak => finish_line st false
  | .rule =>
    let rule_width := width.getD 80
    { st with lines := st.lines ++
        [⟨⟨[⟨List.replicate rule_width '─', { fg := some .gray }⟩]⟩, false⟩] }
  | .footnoteReference name =>
    { st with current_line_spans :=
        st.current_line_spans ++ [⟨'[' :: '^' :: name ++ [']'], { fg := some .blue }⟩] }
  | .taskListMarker checked =>
    { st with current_line_spans :=
        st.current_line_spans ++ [Span.raw (if checked then "[x] ".data else "[ ] ".data)] }

/-- The `parse_markdown_to_marked_lines` function of `md.rs`, consuming
the event stream the external `pulldown_cmark` parser produces for the
markdown text. -/
def parse_markdown_to_marked_lines (events : List MdEvent) (width : Option Nat) :
    List MarkdownLine :=
  (finish_line (events.foldl (processEvent width) initParseState) false).lines

/-! ## Shared concrete objects for witnesses and counterexamples -/

/-- A plain unstyled non-code line. -/
def rawLine (s : String) : MarkdownLine := ⟨⟨[Span.raw s.data]⟩, false⟩

/-- A degenerate but well-typed instance of the external HTML library
interface, used to instantiate universally quantified theorems. -/
def envA : HtmlEnv := ⟨fun _ => .text "", fun _ => [], true⟩

/-- A converter that always fails, modelling `htmd` returning `Err`. -/
def convNone : Str → Option Str := fun _ => none

/-! ## Easy wrap-engine facts -/

/-- C6: a `MarkedLine` with `is_code_block = true` is returned by the
Word-Wrap Engine as the single element of its result for every
requested width and continuation indent: it is never split and never
has indentation prepended. -/
theorem code_block_immunity (line : MarkdownLine) (max_width continuation_indent : Nat)
    (h : line.is_code_block = true) :
    wrap_single_line line max_width continuation_indent = [line] := by
  unfold wrap_single_line
  rw [if_pos (Or.inl h)]

/-- Witness for `code_block_immunity` at a concrete code line. -/
theorem code_block_immunity_witness :
    wrap_single_line ⟨⟨[Span.raw "select * from t".data]⟩, true⟩ 10 2 =
      [⟨⟨[Span.raw "select * from t".data]⟩, true⟩] :=
  code_block_immunity ⟨⟨[Span.raw "select * from t".data]⟩, true⟩ 10 2 rfl

/-- C9: the minimum usable threshold of `wrap_single_line` is exactly
10: every line (code or not) is returned unchanged as a singleton for
every `max_width < 10` and every continuation indent, while at width 10
wrapping does occur. -/
theorem narrow_width_unchanged :
    (∀ (line : MarkdownLine) (max_width continuation_indent : Nat), max_width < 10 →
       wrap_single_line line max_width continuation_indent = [line]) ∧
    wrap_single_line (rawLine "aaaaaa bbbbbb") 10 0 ≠ [rawLine "aaaaaa bbbbbb"] := by
  constructor
  · intro line max_width continuation_indent h
    unfold wrap_single_line
    rw [if_pos (Or.inr h)]
  · decide

/-- Witness for `narrow_width_unchanged` at width 9. -/
theorem narrow_width_unchanged_witness :
    wrap_single_line (rawLine "aaaaaa bbbbbb") 9 0 = [rawLine "aaaaaa bbbbbb"] :=
  narrow_width_unchanged.1 (rawLine "aaaaaa bbbbbb") 9 0 (by decide)

/-! ## html_to_markdown fallback and whitespace behaviour -/

/-- Helper: a string of whitespace characters trims to nothing. -/
theorem rustTrim_of_all_whitespace (s : Str) (h : ∀ c ∈ s, rustIsWhitespace c = true) :
    rustTrim s = [] := by
  have h1 : trimStart s = [] := by
    simp only [trimStart, List.dropWhile_eq_nil_iff]
    exact h
  simp [rustTrim, h1]

/-- C10: on input consisting entirely of whitespace characters
(including the empty string) `html_to_markdown` returns the empty
string, regardless of the behaviour of the repair and conversion
collaborators — they are never consulted. -/
theorem whitespace_input_empty (env : HtmlEnv) (convert : Str → Option Str) (s : Str)
    (h : ∀ c ∈ s, rustIsWhitespace c = true) :
    html_to_markdown env convert s = [] := by
  unfold html_to_markdown
  rw [if_pos]
  rw [rustTrim_of_all_whitespace s h]
  rfl

/-- Witness for `whitespace_input_empty` on a space-tab-newline string. -/
theorem whitespace_input_empty_witness :
    html_to_markdown envA convNone " \t\n".data = [] :=
  whitespace_input_empty envA convNone " \t\n".data (by decide)

/-- C8: the conversion stage never surfaces an error.  When the
converter fails (`none`) on the repaired input of a non-blank string,
`html_to_markdown` returns the original hypertext unchanged; when the
list-selector fails, `fix_nested_lists` returns its input unchanged.
Both functions are total Lean functions, so they return a string on
every input. -/
theorem conversion_fallback :
    (∀ (env : HtmlEnv) (convert : Str → Option Str) (html : Str),
       (rustTrim html).isEmpty = false →
       convert (fix_nested_lists env (wrap_pre_with_code html)) = none →
       html_to_markdown env convert html = html) ∧
    (∀ (env : HtmlEnv) (html : Str), env.selectOk = false →
       fix_nested_lists env html = html) := by
  constructor
  · intro env convert html hne hfail
    unfold html_to_markdown
    rw [if_neg (by simp [hne])]
    simp only [hfail]
  · intro env html hsel
    unfold fix_nested_lists
    rw [if_neg (by simp [hsel])]

/-- Witness for `conversion_fallback`: a failing converter returns the
raw input, and a failing selector leaves the string untouched. -/
theorem conversion_fallback_witness :
    html_to_markdown envA convNone "<p>x</p>".data = "<p>x</p>".data ∧
    fix_nested_lists ⟨fun _ => .text "", fun _ => [], false⟩ "<ul>".data = "<ul>".data :=
  ⟨conversion_fallback.1 envA convNone "<p>x</p>".data (by decide) rfl,
   conversion_fallback.2 ⟨fun _ => .text "", fun _ => [], false⟩ "<ul>".data rfl⟩

/-! ## Code-block handling by the structural parser -/

/-- The marked lines an in-code text event appends: one padded
code-block line per split part, with empty parts skipped unless the
split produced exactly one part. -/
def codeOutLines (w : Option Nat) (sty : Style) (t : Str) : List MarkdownLine :=
  ((splitNl t).filter (fun l => !l.isEmpty || (splitNl t).length == 1)).map
    (fun l => ⟨⟨[⟨padToWidth w l, { sty with bg := some Color.black }⟩]⟩, true⟩)

/-- Helper: the line-appending fold used for in-code text events equals
appending the filtered, mapped split parts to the line list. -/
theorem foldl_lines_aux (p : Str → Bool) (g : Str → MarkdownLine) :
    ∀ (ls : List Str) (st : ParseState),
      ls.foldl (fun acc l =>
        if p l then { acc with lines := acc.lines ++ [g l] } else acc) st
      = { st with lines := st.lines ++ (ls.filter p).map g } := by
  intro ls
  induction ls with
  | nil => intro st; simp
  | cons c rest ih =>
    intro st
    by_cases hc : p c
    · rw [List.foldl_cons, if_pos hc, ih]
      simp [List.filter_cons, hc]
    · rw [List.foldl_cons, if_neg hc, ih]
      simp [List.filter_cons, hc]

/-- Helper: an in-code text event, when no link is open, appends
exactly `codeOutLines` to the line list and touches nothing else in the
state. -/
theorem emitCodeLines_eq (w : Option Nat) (sty : Style) (st : ParseState) (t : Str) :
    emitCodeLines w sty st t = { st with lines := st.lines ++ codeOutLines w sty t } := by
  unfold emitCodeLines codeOutLines
  exact foldl_lines_aux _ _ (splitNl t) st

/-- C2 (amended): while the in-code flag is set and no link is open,
each text event's content is split on embedded newlines and every
nonempty resulting line (or a single empty one, when the split produced
exactly one part) is emitted immediately as its own
`is_code_block = true` line, right-padded with spaces to the
caller-supplied width when the content is shorter; code-block end
clears the flag and appends one blank separator line; and the fenced
code block holding `"select * from t"` at width 10 becomes a single
unwrapped code line. -/
theorem code_block_text_emission :
    (∀ (w : Option Nat) (st : ParseState) (t : Str),
       st.in_code_block = true → st.link_destination = none →
       processEvent w st (.text t) =
         { st with lines := st.lines ++
             codeOutLines w (foldStyles st.emphasis_stack) t }) ∧
    (∀ (w : Option Nat) (st : ParseState),
       (processEvent w st (.stop .codeBlock)).in_code_block = false ∧
       (processEvent w st (.stop .codeBlock)).lines = st.lines ++ [blankLine] ∧
       (processEvent w st (.stop .codeBlock)).current_line_spans = st.current_line_spans) ∧
    parse_markdown_to_marked_lines
      [.start .codeBlock, .text "select * from t\n".data, .stop .codeBlock] (some 10) =
      [⟨⟨[⟨"select * from t".data, { bg := some Color.black }⟩]⟩, true⟩, blankLine] := by
  refine ⟨?_, ?_, by decide⟩
  · intro w st t hcode hlink
    show (if st.link_destination.isSome ∧ ¬st.emphasis_stack.isEmpty then _ else _) = _
    rw [if_neg (by simp [hlink])]
    rw [if_pos hcode]
    exact emitCodeLines_eq w _ st t
  · intro w st
    refine ⟨rfl, rfl, rfl⟩

/-- Witness for `code_block_text_emission` at a concrete in-code state
and a text event with an interior and a trailing newline. -/
theorem code_block_text_emission_witness :
    processEvent (some 4) ⟨[], [], true, [], [], none⟩ (.text "ab\ncd\n".data) =
      { (⟨[], [], true, [], [], none⟩ : ParseState) with
        lines := ([] : List MarkdownLine) ++ codeOutLines (some 4) (foldStyles []) "ab\ncd\n".data } :=
  code_block_text_emission.1 (some 4) ⟨[], [], true, [], [], none⟩ "ab\ncd\n".data rfl rfl

/-- C2 counterexample: the unamended claim says every line resulting
from the newline split is emitted as its own marked line, but a code
block whose text splits into three parts (one of them empty) emits only
two code lines — the interior empty part is skipped. -/
theorem code_block_text_emission_counterexample :
    (splitNl "a\n\nb".data).length = 3 ∧
    ((parse_markdown_to_marked_lines
        [.start .codeBlock, .text "a\n\nb".data, .stop .codeBlock] (some 4)).filter
       (fun m => m.is_code_block)).map (fun m => textOfLine m.line) =
      ["a   ".data, "b   ".data] := by decide

/-! ## Continuation indent -/

/-- Helper: the leading-whitespace count of spaces followed by a
non-space non-tab character is the number of spaces. -/
theorem leadingIndentWidth_spaces (k : Nat) (c : Char) (s : Str)
    (h1 : c ≠ ' ') (h2 : c ≠ '\t') :
    leadingIndentWidth (spacesS k ++ c :: s) = k := by
  induction k with
  | zero => simp [spacesS, leadingIndentWidth, h1, h2]
  | succ n ih =>
    rw [spacesS, List.replicate_succ, List.cons_append]
    rw [show List.replicate n ' ' = spacesS n from rfl] at *
    simp [leadingIndentWidth, ih]
    omega

/-- Helper: trimming leading whitespace off spaces followed by a
non-whitespace character leaves the tail intact. -/
theorem trimStart_spaces (k : Nat) (c : Char) (s : Str)
    (h : rustIsWhitespace c = false) :
    trimStart (spacesS k ++ c :: s) = c :: s := by
  induction k with
  | zero => simp [spacesS, trimStart, List.dropWhile_cons, h]
  | succ n ih =>
    rw [spacesS, List.replicate_succ, List.cons_append]
    rw [show List.replicate n ' ' = spacesS n from rfl]
    simpa [trimStart, List.dropWhile_cons] using ih

/-- Helper: an ASCII digit is none of the whitespace, marker, or dot
characters the indent computation inspects. -/
theorem isAsciiDigit_props (c : Char) (h : isAsciiDigit c = true) :
    rustIsWhitespace c = false ∧ c ≠ ' ' ∧ c ≠ '\t' ∧ c ≠ '.' ∧
    (c == '•' || c == '-' || c == '*') = false := by
  simp only [isAsciiDigit, Bool.and_eq_true, decide_eq_true_eq] at h
  refine ⟨?_, ?_, ?_, ?_, ?_⟩
  · simp only [rustIsWhitespace, Bool.or_eq_false_iff, Bool.and_eq_false_iff]
    simp only [decide_eq_false_iff_not, not_le, beq_eq_false_iff_ne, ne_eq]
    omega
  · intro hc; rw [hc] at h; exact absurd h (by decide)
  · intro hc; rw [hc] at h; exact absurd h (by decide)
  · intro hc; rw [hc] at h; exact absurd h (by decide)
  · simp only [Bool.or_eq_false_iff, beq_eq_false_iff_ne, ne_eq]
    refine ⟨⟨?_, ?_⟩, ?_⟩ <;> intro hc <;> rw [hc] at h <;> exact absurd h (by decide)

/-- Helper: the first `". "` of all-digit text followed by `". "` sits
right after the digits. -/
theorem findDotSpace_digits (d : Str) (rest : Str)
    (h : ∀ c ∈ d, isAsciiDigit c = true) :
    findDotSpace (d ++ '.' :: ' ' :: rest) = some d.length := by
  induction d with
  | nil => simp [findDotSpace]
  | cons c d' ih =>
    have hc := isAsciiDigit_props c (h c (by simp))
    rw [List.cons_append, findDotSpace]
    rw [if_neg (by simp [hc.2.2.2.1])]
    rw [ih (fun x hx => h x (by simp [hx]))]
    simp

/-- C7: the continuation indent of a line whose text is spaces followed
by a bullet marker `"• "` is the space count plus 2; for spaces
followed by an ordinal marker `"<digits>. "` it is the space count plus
the rendered marker width; and wrapping the Scenario D line
`"• " ++ "word " × 20` at width 20 yields a first line starting with
the bullet and continuation lines starting with exactly two spaces,
with no word split. -/
theorem continuation_indent_spec :
    (∀ (l : RLine) (k : Nat) (rest : Str),
       textOfLine l = spacesS k ++ '•' :: ' ' :: rest →
       calculate_continuation_indent l = k + 2) ∧
    (∀ (l : RLine) (k : Nat) (d rest : Str),
       d ≠ [] → (∀ c ∈ d, isAsciiDigit c = true) →
       textOfLine l = spacesS k ++ d ++ '.' :: ' ' :: rest →
       calculate_continuation_indent l = k + d.length + 2) ∧
    (wrap_single_line ⟨⟨[Span.raw ("• ".data ++ (List.replicate 20 "word ".data).flatten)]⟩,
        false⟩ 20
      (calculate_continuation_indent
        ⟨[Span.raw ("• ".data ++ (List.replicate 20 "word ".data).flatten)]⟩)).map
      (fun m => textOfLine m.line) =
    ["• word word word ".data, "  word word word ".data, "  word word word ".data,
     "  word word word ".data, "  word word word ".data, "  word word word ".data,
     "  word word ".data] := by
  refine ⟨?_, ?_, by decide⟩
  · intro l k rest htext
    simp only [calculate_continuation_indent, htext]
    rw [leadingIndentWidth_spaces k '•' (' ' :: rest) (by decide) (by decide)]
    rw [trimStart_spaces k '•' (' ' :: rest) (by decide)]
    rw [if_pos (by simp [bulletStart])]
  · intro l k d rest hd hdig htext
    obtain ⟨c0, d', rfl⟩ := List.exists_cons_of_ne_nil hd
    have hc0 := isAsciiDigit_props c0 (hdig c0 (by simp))
    simp only [calculate_continuation_indent, htext, List.append_assoc, List.cons_append]
    rw [leadingIndentWidth_spaces k c0 (d' ++ '.' :: ' ' :: rest) hc0.2.1 hc0.2.2.1]
    rw [trimStart_spaces k c0 (d' ++ '.' :: ' ' :: rest) hc0.1]
    rw [if_neg ?hbul]
    case hbul =>
      intro hb
      rcases d' with _ | ⟨c1, d''⟩
      · simp only [List.nil_append, bulletStart] at hb
        rw [Bool.and_eq_true] at hb
        rw [hc0.2.2.2.2] at hb
        exact absurd hb.1 (by decide)
      · simp only [List.cons_append, bulletStart] at hb
        rw [Bool.and_eq_true] at hb
        rw [hc0.2.2.2.2] at hb
        exact absurd hb.1 (by decide)
    rw [show c0 :: (d' ++ '.' :: ' ' :: rest) = (c0 :: d') ++ '.' :: ' ' :: rest from rfl]
    rw [findDotSpace_digits (c0 :: d') rest hdig]
    show (if (List.take (c0 :: d').length ((c0 :: d') ++ '.' :: ' ' :: rest)).all isAsciiDigit
            = true
          then k + (c0 :: d').length + 2 else k) = k + (c0 :: d').length + 2
    rw [List.take_append_of_le_length (Nat.le_refl _), List.take_length]
    rw [if_pos (List.all_eq_true.2 hdig)]

/-- Witness for `continuation_indent_spec` at a concrete bullet line and
a concrete two-digit ordinal line. -/
theorem continuation_indent_spec_witness :
    calculate_continuation_indent ⟨[Span.raw "  • abc".data]⟩ = 4 ∧
    calculate_continuation_indent ⟨[Span.raw " 12. abc".data]⟩ = 5 := by
  constructor
  · exact continuation_indent_spec.1 ⟨[Span.raw "  • abc".data]⟩ 2 "abc".data (by decide)
  · exact continuation_indent_spec.2.1 ⟨[Span.raw " 12. abc".data]⟩ 1 "12".data "abc".data
      (by decide) (by decide) (by decide)

/-! ## Structure repair: characterisation and idempotence -/

/- no top-level list elements -/
def noLists (l : List HNode) : Bool := l.all (fun c => !isListE c)

/- no list element after the first list item -/
def noViol : List HNode → Bool
  | [] => true
  | c :: rest => if isLiE c then noLists rest else noViol rest

abbrev F (l : List HNode) : List HNode × List HNode := l.foldr rstep ([], [])

theorem F_cons (c : HNode) (l : List HNode) : F (c :: l) = rstep c (F l) := rfl

theorem regroup_eq (l : List HNode) : regroup l = (F l).1 ++ (F l).2 := rfl

theorem isLiE_elem {c : HNode} (h : isLiE c = true) :
    ∃ kids, c = HNode.elem "li" kids := by
  cases c with
  | elem n kids =>
    simp only [isLiE, beq_iff_eq] at h
    exact ⟨kids, by rw [h]⟩
  | text s => simp [isLiE] at h

theorem isListE_liAbsorb {c : HNode} (seg : List HNode) (h : isLiE c = true) :
    isListE (liAbsorb c seg) = false := by
  obtain ⟨kids, rfl⟩ := isLiE_elem h
  simp [liAbsorb, isListE]

/- the parts of the fold state: no li in the open segment, no top-level
list element in the finished part -/
theorem F_parts : ∀ l : List HNode,
    (∀ c ∈ (F l).1, isLiE c = false) ∧ noLists (F l).2 = true := by
  intro l
  induction l with
  | nil => exact ⟨by intro c hc; simp [F] at hc, rfl⟩
  | cons c rest ih =>
    rw [F_cons, rstep]
    by_cases hc : isLiE c
    · rw [if_pos hc]
      refine ⟨by intro x hx; simp at hx, ?_⟩
      simp only [noLists, List.all_cons, List.all_append, Bool.and_eq_true]
      refine ⟨by simp [isListE_liAbsorb _ hc], ?_, ?_⟩
      · rw [List.all_eq_true]
        intro x hx
        have := List.of_mem_filter hx
        simpa using this
      · have := ih.2
        rwa [noLists] at this
    · rw [if_neg hc]
      refine ⟨?_, ih.2⟩
      intro x hx
      rcases List.mem_cons.1 hx with rfl | hx'
      · exact Bool.eq_false_iff.2 hc
      · exact ih.1 x hx'

theorem noLists_noViol : ∀ l : List HNode, noLists l = true → noViol l = true := by
  intro l
  induction l with
  | nil => intro _; rfl
  | cons c rest ih =>
    intro h
    rw [noLists, List.all_cons, Bool.and_eq_true] at h
    rw [noViol]
    by_cases hc : isLiE c
    · rw [if_pos hc]; exact h.2
    · rw [if_neg hc]; exact ih h.2

theorem noViol_append (a b : List HNode) (ha : ∀ c ∈ a, isLiE c = false)
    (hb : noViol b = true) : noViol (a ++ b) = true := by
  induction a with
  | nil => simpa using hb
  | cons c a' ih =>
    rw [List.cons_append, noViol, if_neg]
    · exact ih (fun x hx => ha x (by simp [hx]))
    · simp [ha c (by simp)]

/- regroup output never violates -/
theorem noViol_regroup (l : List HNode) : noViol (regroup l) = true := by
  rw [regroup_eq]
  exact noViol_append _ _ (F_parts l).1 (noLists_noViol _ (F_parts l).2)

theorem noLists_filter_eq {s : List HNode} (h : noLists s = true) :
    s.filter isListE = [] ∧ s.filter (fun x => !isListE x) = s := by
  rw [noLists, List.all_eq_true] at h
  constructor
  · rw [List.filter_eq_nil_iff]
    intro a ha
    have := h a ha
    simpa using this
  · rw [List.filter_eq_self]
    exact h

/- on a no-top-list tail the fold is the identity -/
theorem F_noLists {l : List HNode} (h : noLists l = true) :
    (F l).1 ++ (F l).2 = l ∧ noLists (F l).1 = true := by
  induction l with
  | nil => exact ⟨rfl, rfl⟩
  | cons c rest ih =>
    rw [noLists, List.all_cons, Bool.and_eq_true] at h
    obtain ⟨ih1, ih2⟩ := ih h.2
    rw [F_cons, rstep]
    by_cases hc : isLiE c
    · rw [if_pos hc]
      obtain ⟨kids, rfl⟩ := isLiE_elem hc
      obtain ⟨hf1, hf2⟩ := noLists_filter_eq ih2
      constructor
      · simp only [List.nil_append, liAbsorb, hf1, hf2, List.append_nil]
        rw [ih1]
      · rfl
    · rw [if_neg hc]
      constructor
      · simp only [List.cons_append, ih1]
      · rw [noLists, List.all_cons, Bool.and_eq_true]
        exact ⟨h.1, ih2⟩

theorem regroup_of_noViol : ∀ l : List HNode, noViol l = true → regroup l = l := by
  intro l
  induction l with
  | nil => intro _; rfl
  | cons c rest ih =>
    intro h
    rw [noViol] at h
    rw [regroup_eq, F_cons, rstep]
    by_cases hc : isLiE c
    · rw [if_pos hc] at h ⊢
      obtain ⟨kids, rfl⟩ := isLiE_elem hc
      obtain ⟨hr, hf⟩ := F_noLists h
      obtain ⟨hf1, hf2⟩ := noLists_filter_eq hf
      simp only [List.nil_append, liAbsorb, hf1, hf2, List.append_nil]
      rw [hr]
    · rw [if_neg hc] at h ⊢
      have := ih h
      rw [regroup_eq] at this
      simp only [List.cons_append, this]

theorem regroup_idem (l : List HNode) : regroup (regroup l) = regroup l :=
  regroup_of_noViol _ (noViol_regroup l)

theorem fixNodes_cons (c : HNode) (l : List HNode) :
    fixNodes (c :: l) = fixNode c :: fixNodes l := by
  cases c <;> simp [fixNodes, fixNode]

theorem fixNodes_eq_map (l : List HNode) : fixNodes l = l.map fixNode := by
  induction l with
  | nil => simp [fixNodes]
  | cons c rest ih => rw [fixNodes_cons, List.map_cons, ih]

theorem fixNodes_fixed {l : List HNode} (h : ∀ e ∈ l, fixNode e = e) :
    fixNodes l = l := by
  induction l with
  | nil => simp [fixNodes]
  | cons c rest ih =>
    rw [fixNodes_cons, h c (by simp), ih (fun x hx => h x (by simp [hx]))]

theorem fixNodes_append (a b : List HNode) :
    fixNodes (a ++ b) = fixNodes a ++ fixNodes b := by
  simp [fixNodes_eq_map]

/- fixNode-fixed elements remain fixed through regroup -/
theorem regroup_fixed {l : List HNode} (h : ∀ e ∈ l, fixNode e = e) :
    ∀ e ∈ regroup l, fixNode e = e := by
  have key : ∀ (m : List HNode), (∀ e ∈ m, fixNode e = e) →
      (∀ e ∈ (F m).1, fixNode e = e) ∧ (∀ e ∈ (F m).2, fixNode e = e) := by
    intro m
    induction m with
    | nil => intro _; exact ⟨by intro e he; simp [F] at he, by intro e he; simp [F] at he⟩
    | cons c rest ih =>
      intro hm
      obtain ⟨ih1, ih2⟩ := ih (fun x hx => hm x (by simp [hx]))
      rw [F_cons, rstep]
      by_cases hc : isLiE c
      · rw [if_pos hc]
        refine ⟨by intro e he; simp at he, ?_⟩
        intro e he
        rcases List.mem_cons.1 he with rfl | he'
        · obtain ⟨kids, rfl⟩ := isLiE_elem hc
          have hcf : fixNode (HNode.elem "li" kids) = HNode.elem "li" kids :=
            hm _ (by simp)
          rw [fixNode] at hcf
          rw [if_neg (by decide)] at hcf
          have hkids : fixNodes kids = kids := by
            have := congrArg (fun t => match t with
              | HNode.elem _ ks => ks
              | HNode.text _ => []) hcf
            simpa using this
          simp only [liAbsorb, fixNode]
          rw [if_neg (by decide)]
          rw [fixNodes_append, hkids]
          rw [fixNodes_fixed (fun x hx => ih1 x (List.mem_of_mem_filter hx))]
        · rcases List.mem_append.1 he' with hf | hs
          · exact ih1 e (List.mem_of_mem_filter hf)
          · exact ih2 e hs
      · rw [if_neg hc]
        refine ⟨?_, ih2⟩
        intro e he
        rcases List.mem_cons.1 he with rfl | he'
        · exact hm e (by simp)
        · exact ih1 e he'
  intro e he
  rw [regroup_eq] at he
  rcases List.mem_append.1 he with h1 | h2
  · exact (key l h).1 e h1
  · exact (key l h).2 e h2

theorem sizeOf_mem_lt {c : HNode} {kids : List HNode} (h : c ∈ kids) (n : String) :
    sizeOf c < sizeOf (HNode.elem n kids) := by
  have h1 : sizeOf c < sizeOf kids := List.sizeOf_lt_of_mem h
  have h2 : sizeOf (HNode.elem n kids) = 1 + sizeOf n + sizeOf kids := by
    simp
  omega

theorem fixNode_idem_aux : ∀ (b : Nat) (t : HNode), sizeOf t ≤ b →
    fixNode (fixNode t) = fixNode t := by
  intro b
  induction b with
  | zero =>
    intro t ht
    exfalso
    cases t <;> simp at ht
  | succ n ih =>
    intro t ht
    cases t with
    | text s => rfl
    | elem nm kids =>
      have hsz : ∀ c ∈ kids, sizeOf c ≤ n := by
        intro c hc
        have h1 := sizeOf_mem_lt hc nm
        simp only [HNode.elem.sizeOf_spec] at ht h1
        omega
      have ha : ∀ e ∈ fixNodes kids, fixNode e = e := by
        rw [fixNodes_eq_map]
        intro e he
        obtain ⟨c, hc, rfl⟩ := List.mem_map.1 he
        exact ih c (hsz c hc)
      by_cases hn : (nm == "ul" || nm == "ol") = true
      · have e1 : fixNode (HNode.elem nm kids)
            = HNode.elem nm (regroup (fixNodes kids)) := by
          rw [fixNode]
          rw [if_pos hn]
        rw [e1]
        have e2 : fixNode (HNode.elem nm (regroup (fixNodes kids)))
            = HNode.elem nm (regroup (fixNodes (regroup (fixNodes kids)))) := by
          rw [fixNode]
          rw [if_pos hn]
        rw [e2]
        rw [fixNodes_fixed (regroup_fixed ha), regroup_idem]
      · have e1 : fixNode (HNode.elem nm kids) = HNode.elem nm (fixNodes kids) := by
          rw [fixNode]
          rw [if_neg hn]
        rw [e1]
        have e2 : fixNode (HNode.elem nm (fixNodes kids))
            = HNode.elem nm (fixNodes (fixNodes kids)) := by
          rw [fixNode]
          rw [if_neg hn]
        rw [e2]
        rw [fixNodes_fixed ha]

theorem fixNode_idem (t : HNode) : fixNode (fixNode t) = fixNode t :=
  fixNode_idem_aux (sizeOf t) t (Nat.le_refl _)

theorem regroup_noLi : ∀ l : List HNode, (∀ c ∈ l, isLiE c = false) → regroup l = l := by
  intro l
  induction l with
  | nil => intro _; rfl
  | cons c rest ih =>
    intro h
    rw [regroup_eq, F_cons, rstep, if_neg (by simp [h c (by simp)])]
    have := ih (fun x hx => h x (by simp [hx]))
    rw [regroup_eq] at this
    simp only [List.cons_append, this]

theorem F_append_noLi (seg rest : List HNode) (h : ∀ c ∈ seg, isLiE c = false) :
    F (seg ++ rest) = (seg ++ (F rest).1, (F rest).2) := by
  induction seg with
  | nil => simp
  | cons c s ih =>
    rw [List.cons_append, F_cons, ih (fun x hx => h x (by simp [hx])), rstep]
    rw [if_neg (by simp [h c (by simp)])]
    simp

theorem F_fst_nil_of_li : ∀ rest : List HNode,
    (rest = [] ∨ ∃ c' rest', rest = c' :: rest' ∧ isLiE c' = true) → (F rest).1 = [] := by
  intro rest h
  rcases h with rfl | ⟨c', rest', rfl, hli⟩
  · rfl
  · rw [F_cons, rstep, if_pos hli]

theorem regroup_li_segment (kids seg rest : List HNode)
    (hseg : ∀ c ∈ seg, isLiE c = false)
    (hrest : rest = [] ∨ ∃ c' rest', rest = c' :: rest' ∧ isLiE c' = true) :
    regroup (HNode.elem "li" kids :: (seg ++ rest)) =
      HNode.elem "li" (kids ++ seg.filter isListE) ::
        (seg.filter (fun x => !isListE x) ++ regroup rest) := by
  have hfst := F_fst_nil_of_li rest hrest
  rw [regroup_eq, F_cons, F_append_noLi seg rest hseg, rstep]
  rw [if_pos (by simp [isLiE])]
  simp only [hfst, List.append_nil, liAbsorb, List.nil_append]
  rw [regroup_eq, hfst, List.nil_append]

/-- Helper: children preceding an `li` (any `li`-free prefix) are left
in place by the repair pass, whatever follows them.  This is the
collect loop never selecting a fix for a list child with no preceding
`li` sibling. -/
theorem regroup_prefix_free (pre rest : List HNode)
    (h : ∀ c ∈ pre, isLiE c = false) :
    regroup (pre ++ rest) = pre ++ regroup rest := by
  rw [regroup_eq, regroup_eq, F_append_noLi pre rest h, List.append_assoc]

/-- C3: the child-list repair of every list element is fully
characterised.  Children before the first `li` — in particular every
list child with no preceding `li` sibling — are left in place (second
and third conjuncts); each `li` absorbs as its last children exactly
the list elements among its following siblings up to the next `li`,
its non-list siblings staying in place, and repair continues after the
segment (fourth conjunct).  Since every child list decomposes as an
`li`-free prefix followed by nothing or an `li`-headed remainder, the
first, second and fourth conjuncts determine `regroup` on every input.
The claim's concrete input `<ul><li>one</li><ul><li>two</li></ul></ul>`
(as parsed into the html/head/body-wrapped DOM) is repaired so the
inner list becomes a child of the `one` list item. -/
theorem nested_list_repair :
    regroup [] = [] ∧
    (∀ (pre rest : List HNode), (∀ c ∈ pre, isLiE c = false) →
       regroup (pre ++ rest) = pre ++ regroup rest) ∧
    (∀ l : List HNode, (∀ c ∈ l, isLiE c = false) → regroup l = l) ∧
    (∀ (kids seg rest : List HNode),
       (∀ c ∈ seg, isLiE c = false) →
       (rest = [] ∨ ∃ c' rest', rest = c' :: rest' ∧ isLiE c' = true) →
       regroup (HNode.elem "li" kids :: (seg ++ rest)) =
         HNode.elem "li" (kids ++ seg.filter isListE) ::
           (seg.filter (fun x => !isListE x) ++ regroup rest)) ∧
    fixNode (.elem "html" [.elem "head" [], .elem "body"
        [.elem "ul" [.elem "li" [.text "one"], .elem "ul" [.elem "li" [.text "two"]]]]]) =
      .elem "html" [.elem "head" [], .elem "body"
        [.elem "ul" [.elem "li" [.text "one", .elem "ul" [.elem "li" [.text "two"]]]]]] := by
  refine ⟨rfl, regroup_prefix_free, regroup_noLi, regroup_li_segment, ?_⟩
  simp [fixNode, fixNodes, regroup, rstep, liAbsorb, isListE, isLiE]

/-- Witness for `nested_list_repair`: a list whose children are a text
node, then an `li`, then a stray list is regrouped with the text node
left in place and the stray list absorbed into the `li`; an `li`
followed by a stray list absorbs it; a list with no `li` at all is
left untouched. -/
theorem nested_list_repair_witness :
    regroup [HNode.text " ", HNode.elem "li" [], HNode.elem "ul" []] =
      [HNode.text " ", HNode.elem "li" [HNode.elem "ul" []]] ∧
    regroup [HNode.elem "li" [], HNode.elem "ul" []] =
      [HNode.elem "li" [HNode.elem "ul" []]] ∧
    regroup [HNode.elem "ul" [], HNode.text "x"] =
      [HNode.elem "ul" [], HNode.text "x"] := by
  have hseg := nested_list_repair.2.2.2.1 [] [HNode.elem "ul" []] []
    (by intro c hc; simp at hc; subst hc; decide) (Or.inl rfl)
  refine ⟨?_, hseg, nested_list_repair.2.2.1 _ (by decide)⟩
  have hpre := nested_list_repair.2.1 [HNode.text " "]
    [HNode.elem "li" [], HNode.elem "ul" []]
    (by intro c hc; simp at hc; subst hc; decide)
  exact hpre.trans (congrArg (fun x => HNode.text " " :: x) hseg)

/-- C4: `fix_nested_lists` is idempotent.  The repair algorithm between
the external parse and serialisation is `fixNode`, proved idempotent
unconditionally (`fixNode_idem`); at the string level the statement
additionally assumes the external HTML library parses its own
serialisation of the repaired tree back to that tree. -/
theorem fix_nested_lists_idempotent (env : HtmlEnv) (s : Str)
    (hrt : env.parseHtml (env.toStr (fixNode (env.parseHtml s))) = fixNode (env.parseHtml s)) :
    fix_nested_lists env (fix_nested_lists env s) = fix_nested_lists env s := by
  unfold fix_nested_lists
  by_cases h : env.selectOk = true
  · rw [if_pos h, if_pos h, hrt, fixNode_idem]
  · rw [if_neg h, if_neg h]

/-- Witness for `fix_nested_lists_idempotent` at a concrete environment
satisfying the parse-serialise round trip on the relevant tree. -/
theorem fix_nested_lists_idempotent_witness :
    fix_nested_lists envA (fix_nested_lists envA "".data) = fix_nested_lists envA "".data :=
  fix_nested_lists_idempotent envA "".data (by simp [envA, fixNode])

/-! ## Image replacement -/

/- no occurrence of the two-character image trigger -/
def noBang : Str → Bool
  | [] => true
  | c :: r => !(c == '!' && r.head? == some '[') && noBang r

/- balanced parentheses relative to depth d, never dropping below zero -/
def parBal : Nat → Str → Bool
  | d, [] => d == 0
  | d, c :: r =>
    if c = '(' then parBal (d + 1) r
    else if c = ')' then (if d = 0 then false else parBal (d - 1) r)
    else parBal d r

theorem repImg_bang (xs : Str) (h : xs.head? ≠ some '[') :
    repImg .bang xs = '!' :: repImg .normal xs := by
  cases xs with
  | nil => rfl
  | cons c t =>
    have hc : ¬c = '[' := fun hh => h (by subst hh; rfl)
    show (if c = '[' then repImg (.alt []) t
          else if c = '!' then '!' :: repImg .bang t
          else '!' :: c :: repImg .normal t)
        = '!' :: (if c = '!' then repImg .bang t else c :: repImg .normal t)
    rw [if_neg hc]
    by_cases hb : c = '!'
    · rw [if_pos hb, if_pos hb]
    · rw [if_neg hb, if_neg hb]

theorem repImg_normal_append (pre rest : Str) (h : noBang pre = true)
    (h2 : rest.head? ≠ some '[') :
    repImg .normal (pre ++ rest) = pre ++ repImg .normal rest := by
  induction pre with
  | nil => rfl
  | cons c p ih =>
    rw [noBang, Bool.and_eq_true] at h
    have hp : noBang p = true := h.2
    show (if c = '!' then repImg .bang (p ++ rest) else c :: repImg .normal (p ++ rest))
        = (c :: p) ++ repImg .normal rest
    by_cases hb : c = '!'
    · rw [if_pos hb]
      have hhd : (p ++ rest).head? ≠ some '[' := by
        cases p with
        | nil => simpa using h2
        | cons q p' =>
          intro hq
          simp only [List.cons_append, List.head?_cons, Option.some.injEq] at hq
          rw [hb] at h
          simp [hq] at h
      rw [repImg_bang _ hhd, ih hp]
      subst hb
      rfl
    · rw [if_neg hb, ih hp]
      rfl

theorem repImg_alt (alt : Str) : ∀ (acc rest : Str), ']' ∉ alt →
    repImg (.alt acc) (alt ++ ']' :: rest) = repImg (.postAlt (acc ++ alt)) rest := by
  induction alt with
  | nil =>
    intro acc rest _
    show (if ']' = ']' then repImg (.postAlt acc) rest else _) = _
    rw [if_pos rfl, List.append_nil]
  | cons c a ih =>
    intro acc rest h
    have hc : ¬c = ']' := fun hh => h (by rw [hh]; simp)
    show (if c = ']' then repImg (.postAlt acc) (a ++ ']' :: rest)
          else repImg (.alt (acc ++ [c])) (a ++ ']' :: rest))
        = repImg (.postAlt (acc ++ c :: a)) rest
    rw [if_neg hc, ih (acc ++ [c]) rest (fun hm => h (by simp [hm]))]
    rw [List.append_assoc]
    rfl

theorem repImg_url (url : Str) : ∀ (d : Nat) (acc rest : Str), parBal d url = true →
    repImg (.url acc (d + 1)) (url ++ ')' :: rest) =
      imgPlaceholder acc ++ repImg .normal rest := by
  induction url with
  | nil =>
    intro d acc rest h
    have hd : d = 0 := by simpa [parBal] using h
    subst hd
    show (if ')' = '(' then repImg (.url acc (0 + 1 + 1)) rest
          else if ')' = ')' then
            (if 0 + 1 = 1 then imgPlaceholder acc ++ repImg .normal rest
             else repImg (.url acc (0 + 1 - 1)) rest)
          else repImg (.url acc (0 + 1)) rest)
        = imgPlaceholder acc ++ repImg .normal rest
    rw [if_neg (by decide), if_pos rfl, if_pos rfl]
  | cons c u ih =>
    intro d acc rest h
    by_cases h1 : c = '('
    · subst h1
      rw [parBal, if_pos rfl] at h
      show (if '(' = '(' then repImg (.url acc (d + 1 + 1)) (u ++ ')' :: rest)
            else if '(' = ')' then
              (if d + 1 = 1 then imgPlaceholder acc ++ repImg .normal (u ++ ')' :: rest)
               else repImg (.url acc (d + 1 - 1)) (u ++ ')' :: rest))
            else repImg (.url acc (d + 1)) (u ++ ')' :: rest))
          = imgPlaceholder acc ++ repImg .normal rest
      rw [if_pos rfl]
      exact ih (d + 1) acc rest h
    · by_cases h2 : c = ')'
      · subst h2
        rw [parBal, if_neg (by decide), if_pos rfl] at h
        cases d with
        | zero => rw [if_pos rfl] at h; exact absurd h (by decide)
        | succ d' =>
          show (if ')' = '(' then repImg (.url acc (d' + 1 + 1 + 1)) (u ++ ')' :: rest)
                else if ')' = ')' then
                  (if d' + 1 + 1 = 1 then
                     imgPlaceholder acc ++ repImg .normal (u ++ ')' :: rest)
                   else repImg (.url acc (d' + 1 + 1 - 1)) (u ++ ')' :: rest))
                else repImg (.url acc (d' + 1 + 1)) (u ++ ')' :: rest))
              = imgPlaceholder acc ++ repImg .normal rest
          rw [if_neg (by decide), if_pos rfl, if_neg (by omega)]
          have heq : d' + 1 + 1 - 1 = d' + 1 := by omega
          rw [heq]
          rw [if_neg (by omega)] at h
          have heq2 : d' + 1 - 1 = d' := by omega
          rw [heq2] at h
          exact ih d' acc rest h
      · rw [parBal, if_neg h1, if_neg h2] at h
        show (if c = '(' then repImg (.url acc (d + 1 + 1)) (u ++ ')' :: rest)
              else if c = ')' then
                (if d + 1 = 1 then imgPlaceholder acc ++ repImg .normal (u ++ ')' :: rest)
                 else repImg (.url acc (d + 1 - 1)) (u ++ ')' :: rest))
              else repImg (.url acc (d + 1)) (u ++ ')' :: rest))
            = imgPlaceholder acc ++ repImg .normal rest
        rw [if_neg h1, if_neg h2]
        exact ih d acc rest h

theorem image_replacement_main (pre alt url post : Str)
    (hpre : noBang pre = true) (halt : ']' ∉ alt) (hurl : parBal 0 url = true) :
    replace_markdown_images
        (pre ++ '!' :: '[' :: (alt ++ ']' :: '(' :: (url ++ ')' :: post)))
      = pre ++ (imgPlaceholder alt ++ replace_markdown_images post) := by
  unfold replace_markdown_images
  rw [repImg_normal_append pre _ hpre (by simp)]
  congr 1
  show repImg .normal ('!' :: '[' :: (alt ++ ']' :: '(' :: (url ++ ')' :: post)))
      = imgPlaceholder alt ++ repImg .normal post
  rw [show repImg .normal ('!' :: '[' :: (alt ++ ']' :: '(' :: (url ++ ')' :: post)))
      = repImg (.alt []) (alt ++ ']' :: '(' :: (url ++ ')' :: post)) from by
    show (if '!' = '!' then _ else _) = _
    rw [if_pos rfl]
    show (if '[' = '[' then _ else _) = _
    rw [if_pos rfl]]
  rw [repImg_alt alt [] _ halt, List.nil_append]
  rw [show repImg (.postAlt alt) ('(' :: (url ++ ')' :: post))
      = repImg (.url alt 1) (url ++ ')' :: post) from by
    show (if '(' = '(' then _ else _) = _
    rw [if_pos rfl]]
  exact repImg_url url 0 alt post hurl

theorem image_replacement_untouched (s : Str) (h : noBang s = true) :
    replace_markdown_images s = s := by
  have := repImg_normal_append s [] h (by simp)
  rw [List.append_nil] at this
  unfold replace_markdown_images
  rw [this, show repImg ImgSt.normal [] = [] from rfl, List.append_nil]

/-- C5: `replace_markdown_images` rewrites every image occurrence
`![alt](url)` (empty alt giving `[Image]`, nonempty alt giving
`[Image: alt]`, nested parentheses in the URL supported) into its
placeholder while emitting the surrounding text unchanged and
continuing on the remainder — which covers several images on one line —
leaves any text without the `![` trigger (in particular ordinary
bracketed links) untouched, leaves an unmatched `![` as literal text,
and maps the claim's instance `![a picture](http://x/y.png)` to
`[Image: a picture]` with no `![` remaining. -/
theorem image_replacement :
    (∀ (pre alt url post : Str),
       noBang pre = true → ']' ∉ alt → parBal 0 url = true →
       replace_markdown_images
           (pre ++ '!' :: '[' :: (alt ++ ']' :: '(' :: (url ++ ')' :: post)))
         = pre ++ (imgPlaceholder alt ++ replace_markdown_images post)) ∧
    (∀ s : Str, noBang s = true → replace_markdown_images s = s) ∧
    replace_markdown_images "This is [a link](url) not an image".data
      = "This is [a link](url) not an image".data ∧
    replace_markdown_images "This is not ![ an image".data
      = "This is not ![ an image".data ∧
    replace_markdown_images "![a picture](http://x/y.png)".data
      = "[Image: a picture]".data ∧
    noBang (replace_markdown_images "![a picture](http://x/y.png)".data) = true ∧
    replace_markdown_images "![](1.png) and ![two](2(x).png)".data
      = "[Image] and [Image: two]".data :=
  ⟨image_replacement_main, image_replacement_untouched,
   by decide, by decide, by decide, by decide, by decide⟩

/-- Witness for `image_replacement`: the general single-occurrence rule
applied at the claim's concrete image. -/
theorem image_replacement_witness :
    replace_markdown_images
        ([] ++ '!' :: '[' :: ("a picture".data ++ ']' :: '(' ::
          ("http://x/y.png".data ++ ')' :: [])))
      = [] ++ (imgPlaceholder "a picture".data ++ replace_markdown_images []) :=
  image_replacement.1 [] "a picture".data "http://x/y.png".data []
    (by decide) (by decide) (by decide)

/-! ## Width-bound proof development -/

def sumW (ws : List WordSpan) : Nat := (ws.map wsWidth).sum

def concatWS (ws : List WordSpan) : Str := (ws.map (fun w => w.content)).flatten

def textOfSpans (l : List Span) : Str := (l.map (fun s => s.content)).flatten

theorem uwidth_append (a b : Str) : uwidth (a ++ b) = uwidth a + uwidth b := by
  simp [uwidth]

theorem uwidth_spacesS (n : Nat) : uwidth (spacesS n) = n := by
  simp [uwidth, spacesS, List.map_replicate]
  simp [show charWidth ' ' = 1 from by decide]

theorem textOfSpans_append (a b : List Span) :
    textOfSpans (a ++ b) = textOfSpans a ++ textOfSpans b := by
  simp [textOfSpans]

theorem textOfSpans_mkSpanOf (cur : Str) (sty : Option Style) :
    textOfSpans [mkSpanOf cur sty] = cur := by
  cases sty <;> simp [textOfSpans, mkSpanOf, Span.raw]

theorem concatWS_cons (wd : WordSpan) (ws : List WordSpan) :
    concatWS (wd :: ws) = wd.content ++ concatWS ws := by
  simp [concatWS]

theorem sumW_cons (wd : WordSpan) (ws : List WordSpan) :
    sumW (wd :: ws) = wsWidth wd + sumW ws := by
  simp [sumW]

theorem sumW_append (a b : List WordSpan) : sumW (a ++ b) = sumW a + sumW b := by
  simp [sumW]

theorem uwidth_concatWS (ws : List WordSpan) : uwidth (concatWS ws) = sumW ws := by
  induction ws with
  | nil => rfl
  | cons wd rest ih =>
    rw [concatWS_cons, uwidth_append, ih, sumW_cons]
    rfl

theorem sumW_dropWhile_le (p : WordSpan → Bool) (ws : List WordSpan) :
    sumW (ws.dropWhile p) ≤ sumW ws := by
  induction ws with
  | nil => exact Nat.le_refl _
  | cons wd rest ih =>
    rw [List.dropWhile_cons]
    by_cases h : p wd
    · rw [if_pos h]
      calc sumW (rest.dropWhile p) ≤ sumW rest := ih
        _ ≤ sumW (wd :: rest) := by rw [sumW_cons]; omega
    · rw [if_neg h]

theorem wtsGo_text : ∀ (ws : List WordSpan) (first : Bool) (cur : Str) (sty : Option Style),
    (∀ wd ∈ ws, wd.content ≠ []) → (cur ≠ [] ∨ first = true) →
    textOfSpans (wtsGo first cur sty ws) = cur ++ concatWS ws := by
  intro ws
  induction ws with
  | nil =>
    intro first cur sty _ _
    rw [wtsGo]
    by_cases h : cur.isEmpty
    · rw [if_pos h]
      rw [List.isEmpty_iff] at h
      subst h
      rfl
    · rw [if_neg h, textOfSpans_mkSpanOf]
      simp [concatWS]
  | cons wd ws ih =>
    intro first cur sty hcont hcf
    have hwd : wd.content ≠ [] := hcont wd (by simp)
    have hskip : ¬(!first && cur.isEmpty && wd.is_whitespace) = true := by
      rcases hcf with hne | hf
      · simp [List.isEmpty_iff, hne]
      · simp [hf]
    rw [wtsGo, if_neg hskip]
    by_cases hsty : sty = some wd.style
    · rw [if_pos hsty]
      rw [ih first (cur ++ wd.content) sty (fun x hx => hcont x (by simp [hx]))
        (Or.inl (by simp [hwd]))]
      rw [concatWS_cons, List.append_assoc]
    · rw [if_neg hsty]
      rw [textOfSpans_append]
      rw [ih first wd.content (some wd.style) (fun x hx => hcont x (by simp [hx]))
        (Or.inl hwd)]
      by_cases h : cur.isEmpty
      · rw [if_pos h]
        rw [List.isEmpty_iff] at h
        subst h
        rw [concatWS_cons]
        rfl
      · rw [if_neg h, textOfSpans_mkSpanOf, concatWS_cons]

theorem wtsGo_text_cont : ∀ (ws : List WordSpan) (sty : Option Style),
    (∀ wd ∈ ws, wd.content ≠ []) →
    textOfSpans (wtsGo false [] sty ws) =
      concatWS (ws.dropWhile (fun wd => wd.is_whitespace)) := by
  intro ws
  induction ws with
  | nil => intro sty _; rfl
  | cons wd ws ih =>
    intro sty hcont
    have hwd : wd.content ≠ [] := hcont wd (by simp)
    rw [List.dropWhile_cons]
    by_cases hws : wd.is_whitespace
    · rw [wtsGo, if_pos (by simp [hws]), if_pos (by simp [hws])]
      exact ih sty (fun x hx => hcont x (by simp [hx]))
    · rw [if_neg (by simp [hws])]
      rw [wtsGo, if_neg (by simp [hws])]
      by_cases hsty : sty = some wd.style
      · rw [if_pos hsty]
        rw [show ([] : Str) ++ wd.content = wd.content from rfl]
        rw [wtsGo_text ws false wd.content sty (fun x hx => hcont x (by simp [hx]))
          (Or.inl hwd)]
        rw [concatWS_cons]
      · rw [if_neg hsty]
        rw [if_pos (by rfl), List.nil_append]
        rw [wtsGo_text ws false wd.content (some wd.style)
          (fun x hx => hcont x (by simp [hx])) (Or.inl hwd)]
        rw [concatWS_cons]

theorem words_to_spans_text_first (ws : List WordSpan) (cind : Nat)
    (hcont : ∀ wd ∈ ws, wd.content ≠ []) :
    textOfSpans (words_to_spans ws true cind) = concatWS ws := by
  unfold words_to_spans
  rw [if_neg (by simp)]
  rw [List.nil_append]
  exact wtsGo_text ws true [] none hcont (Or.inr rfl)

theorem words_to_spans_text_cont (ws : List WordSpan) (cind : Nat)
    (hcont : ∀ wd ∈ ws, wd.content ≠ []) :
    textOfSpans (words_to_spans ws false cind) =
      spacesS cind ++ concatWS (ws.dropWhile (fun wd => wd.is_whitespace)) := by
  unfold words_to_spans
  by_cases h : 0 < cind
  · rw [if_pos (by simp [h])]
    rw [textOfSpans_append]
    rw [wtsGo_text_cont ws none hcont]
    congr 1
    simp [textOfSpans, Span.raw]
  · rw [if_neg (by simp; omega)]
    rw [List.nil_append]
    rw [wtsGo_text_cont ws none hcont]
    have : cind = 0 := by omega
    subst this
    rfl

/-- The per-display-line guarantee of the amended width-bound claim:
the output line is a non-code line whose text is an optional
continuation indent followed by the concatenation of a contiguous
segment of the input WordSpans (so no word is split mid-word), and its
display width is at most `max max_width cind` unless the segment is one
single WordSpan whose own width exceeds the width available on that
line. -/
def wrapLineOK (max_width cind : Nat) (words : List WordSpan) (out : MarkdownLine) : Prop :=
  out.is_code_block = false ∧
  ∃ pre seg, (∃ l r, words = l ++ (seg ++ r)) ∧
    (pre = [] ∨ pre = spacesS cind) ∧
    textOfLine out.line = pre ++ concatWS seg ∧
    (uwidthL out.line ≤ max max_width cind ∨
      ∃ wd, seg = [wd] ∧ max_width < pre.length + wsWidth wd)

theorem textOfLine_spans (spans : List Span) : textOfLine ⟨spans⟩ = textOfSpans spans := rfl

theorem emit_ok (mw cind : Nat) (words cur : List WordSpan) (first : Bool)
    (hcont : ∀ wd ∈ cur, wd.content ≠ [])
    (hsegs : ∃ l r, words = l ++ (cur ++ r))
    (hbound : sumW cur ≤ (if first = true then mw else mw - cind) ∨ ∃ wd, cur = [wd]) :
    wrapLineOK mw cind words ⟨⟨words_to_spans cur first cind⟩, false⟩ := by
  have hm1 := Nat.le_max_left mw cind
  have hm2 := Nat.le_max_right mw cind
  refine ⟨rfl, ?_⟩
  cases first with
  | true =>
    have hb' := hbound
    refine ⟨[], cur, hsegs, Or.inl rfl, ?_, ?_⟩
    · rw [textOfLine_spans, words_to_spans_text_first cur cind hcont, List.nil_append]
    · have htw : uwidthL ⟨words_to_spans cur true cind⟩ = sumW cur := by
        rw [uwidthL, textOfLine_spans, words_to_spans_text_first cur cind hcont,
          uwidth_concatWS]
      by_cases hle : uwidthL ⟨words_to_spans cur true cind⟩ ≤ max mw cind
      · exact Or.inl hle
      · right
        rcases hb' with hb | ⟨wd, rfl⟩
        · exfalso
          apply hle
          rw [htw]
          have : sumW cur ≤ mw := by simpa using hb
          omega
        · refine ⟨wd, rfl, ?_⟩
          rw [htw, sumW_cons] at hle
          have h0 : sumW ([] : List WordSpan) = 0 := rfl
          rw [h0] at hle
          simp only [List.length_nil]
          omega
  | false =>
    refine ⟨spacesS cind, cur.dropWhile (fun wd => wd.is_whitespace), ?_, Or.inr rfl, ?_, ?_⟩
    · obtain ⟨l, r, rfl⟩ := hsegs
      refine ⟨l ++ cur.takeWhile (fun wd => wd.is_whitespace), r, ?_⟩
      rw [List.append_assoc, ← List.append_assoc (cur.takeWhile (fun wd => wd.is_whitespace))]
      rw [List.takeWhile_append_dropWhile]
    · rw [textOfLine_spans, words_to_spans_text_cont cur cind hcont]
    · have htw : uwidthL ⟨words_to_spans cur false cind⟩ =
          cind + sumW (cur.dropWhile (fun wd => wd.is_whitespace)) := by
        rw [uwidthL, textOfLine_spans, words_to_spans_text_cont cur cind hcont,
          uwidth_append, uwidth_spacesS, uwidth_concatWS]
      by_cases hle : uwidthL ⟨words_to_spans cur false cind⟩ ≤ max mw cind
      · exact Or.inl hle
      · right
        rcases hbound with hb | ⟨wd, rfl⟩
        · exfalso
          apply hle
          rw [htw]
          have hb' : sumW cur ≤ mw - cind := by simpa using hb
          have hd := sumW_dropWhile_le (fun wd => wd.is_whitespace) cur
          omega
        · rw [htw] at hle
          rw [List.dropWhile_cons] at hle ⊢
          by_cases hws : wd.is_whitespace
          · exfalso
            apply hle
            rw [if_pos (by simp [hws])]
            have h0 : sumW (List.dropWhile (fun wd => wd.is_whitespace) []) = 0 := rfl
            rw [h0]
            omega
          · rw [if_neg (by simp [hws])] at hle ⊢
            refine ⟨wd, rfl, ?_⟩
            rw [sumW_cons] at hle
            have h0 : sumW ([] : List WordSpan) = 0 := rfl
            rw [h0] at hle
            have hlen : (spacesS cind).length = cind := by simp [spacesS]
            rw [hlen]
            omega

theorem wrapGo_ok (mw cind : Nat) (words : List WordSpan) :
    ∀ (ws cur : List WordSpan) (cw : Nat) (first : Bool),
    (∀ wd ∈ cur ++ ws, wd.content ≠ []) →
    cw = sumW cur →
    (sumW cur ≤ (if first = true then mw else mw - cind) ∨ ∃ wd, cur = [wd]) →
    (∃ l, words = l ++ (cur ++ ws)) →
    ∀ out ∈ wrapGo mw cind ws cur cw first, wrapLineOK mw cind words out := by
  intro ws
  induction ws with
  | nil =>
    intro cur cw first hcont hcw hbound hpref out hout
    rw [wrapGo] at hout
    by_cases hce : cur.isEmpty
    · rw [if_pos hce] at hout
      simp at hout
    · rw [if_neg hce] at hout
      rw [List.mem_singleton] at hout
      subst hout
      obtain ⟨l, hl⟩ := hpref
      exact emit_ok mw cind words cur first
        (fun wd hw => hcont wd (by simp [hw]))
        ⟨l, [], by simpa using hl⟩ hbound
  | cons wd ws ih =>
    intro cur cw first hcont hcw hbound hpref out hout
    rw [wrapGo] at hout
    by_cases hsplit : (if first = true then mw else mw - cind) < cw + wsWidth wd ∧ ¬cur.isEmpty
    · rw [if_pos hsplit] at hout
      rcases List.mem_cons.1 hout with rfl | hout'
      · obtain ⟨l, hl⟩ := hpref
        refine emit_ok mw cind words cur first
          (fun x hx => hcont x (by simp [hx])) ⟨l, wd :: ws, ?_⟩ hbound
        rw [hl]
      · refine ih [wd] (wsWidth wd) false (fun x hx => hcont x ?_) ?_ ?_ ?_ out hout'
        · rcases List.mem_append.1 hx with h1 | h2
          · rw [List.mem_singleton] at h1
            subst h1
            simp
          · simp [h2]
        · rw [sumW_cons]
          rfl
        · exact Or.inr ⟨wd, rfl⟩
        · obtain ⟨l, hl⟩ := hpref
          refine ⟨l ++ cur, ?_⟩
          rw [hl]
          simp [List.append_assoc]
    · rw [if_neg hsplit] at hout
      refine ih (cur ++ [wd]) (cw + wsWidth wd) first (fun x hx => hcont x ?_) ?_ ?_ ?_
        out hout
      · rcases List.mem_append.1 hx with h1 | h2
        · rcases List.mem_append.1 h1 with h1a | h1b
          · simp [h1a]
          · rw [List.mem_singleton] at h1b
            subst h1b
            simp
        · simp [h2]
      · rw [sumW_append, sumW_cons, hcw]
        rfl
      · by_cases hce : cur.isEmpty
        · right
          rw [List.isEmpty_iff] at hce
          subst hce
          exact ⟨wd, rfl⟩
        · left
          have hle : cw + wsWidth wd ≤ (if first = true then mw else mw - cind) := by
            rcases Nat.lt_or_ge (if first = true then mw else mw - cind) (cw + wsWidth wd)
              with hlt | hge
            · exact absurd ⟨hlt, hce⟩ hsplit
            · exact hge
          rw [sumW_append, sumW_cons]
          have h0 : sumW ([] : List WordSpan) = 0 := rfl
          rw [h0, hcw] at *
          omega
      · obtain ⟨l, hl⟩ := hpref
        refine ⟨l, ?_⟩
        rw [hl]
        simp [List.append_assoc]

theorem wrapGo_ne_nil (mw cind : Nat) :
    ∀ (ws cur : List WordSpan) (cw : Nat) (first : Bool),
    (cur = [] → ws ≠ []) → wrapGo mw cind ws cur cw first ≠ [] := by
  intro ws
  induction ws with
  | nil =>
    intro cur cw first h
    have hcur : cur ≠ [] := by
      intro hc
      exact h hc rfl
    rw [wrapGo, if_neg (by simpa [List.isEmpty_iff] using hcur)]
    simp
  | cons wd ws ih =>
    intro cur cw first _
    rw [wrapGo]
    by_cases hsplit : (if first = true then mw else mw - cind) < cw + wsWidth wd ∧ ¬cur.isEmpty
    · rw [if_pos hsplit]
      simp
    · rw [if_neg hsplit]
      exact ih (cur ++ [wd]) (cw + wsWidth wd) first (by simp)

theorem runsAux_content_ne_nil :
    ∀ (s : Str) (cls : Bool) (acc : Str), acc ≠ [] →
    ∀ r ∈ runsAux cls acc s, r.1 ≠ [] := by
  intro s
  induction s with
  | nil =>
    intro cls acc hacc r hr
    rw [runsAux, List.mem_singleton] at hr
    subst hr
    simpa using hacc
  | cons c rest ih =>
    intro cls acc hacc r hr
    rw [runsAux] at hr
    by_cases hc : (rustIsWhitespace c == cls) = true
    · rw [if_pos hc] at hr
      exact ih cls (c :: acc) (by simp) r hr
    · rw [if_neg hc] at hr
      rcases List.mem_cons.1 hr with rfl | hr'
      · simpa using hacc
      · exact ih (rustIsWhitespace c) [c] (by simp) r hr'

theorem charRuns_content_ne_nil (s : Str) : ∀ r ∈ charRuns s, r.1 ≠ [] := by
  cases s with
  | nil => intro r hr; simp [charRuns] at hr
  | cons c rest =>
    intro r hr
    rw [charRuns] at hr
    exact runsAux_content_ne_nil rest (rustIsWhitespace c) [c] (by simp) r hr

theorem split_content_ne_nil (l : RLine) :
    ∀ wd ∈ split_line_into_words l, wd.content ≠ [] := by
  intro wd hwd
  unfold split_line_into_words at hwd
  rw [List.mem_flatten] at hwd
  obtain ⟨inner, hin, hwd2⟩ := hwd
  rw [List.mem_map] at hin
  obtain ⟨sp, _, rfl⟩ := hin
  rw [List.mem_map] at hwd2
  obtain ⟨r, hr, rfl⟩ := hwd2
  exact charRuns_content_ne_nil sp.content r hr

theorem charRuns_nil_iff (s : Str) : charRuns s = [] ↔ s = [] := by
  cases s with
  | nil => simp [charRuns]
  | cons c rest =>
    simp only [charRuns]
    constructor
    · intro h
      exfalso
      have : ∀ (t : Str) (cls : Bool) (acc : Str), runsAux cls acc t ≠ [] := by
        intro t
        induction t with
        | nil => intro cls acc; rw [runsAux]; simp
        | cons d t' ih =>
          intro cls acc
          rw [runsAux]
          by_cases hd : (rustIsWhitespace d == cls) = true
          · rw [if_pos hd]; exact ih cls (d :: acc)
          · rw [if_neg hd]; simp
      exact this rest (rustIsWhitespace c) [c] h
    · intro h
      exact absurd h (by simp)

theorem split_nil_text (l : RLine) (h : split_line_into_words l = []) :
    textOfLine l = [] := by
  unfold split_line_into_words at h
  rw [List.flatten_eq_nil_iff] at h
  unfold textOfLine
  rw [List.flatten_eq_nil_iff]
  intro xs hxs
  rw [List.mem_map] at hxs
  obtain ⟨sp, hsp, rfl⟩ := hxs
  have hruns := h ((charRuns sp.content).map (fun r => WordSpan.mk r.1 sp.style r.2))
    (by rw [List.mem_map]; exact ⟨sp, hsp, rfl⟩)
  rw [List.map_eq_nil_iff] at hruns
  exact (charRuns_nil_iff sp.content).1 hruns

/-- C1 (amended): for every non-code line and width of at least 10,
every display line of `wrap_single_line` with any continuation indent
satisfies `wrapLineOK`: its text is the indent plus whole input words,
and its width is bounded by `max max_width cind` except for a lone
overwide word. -/
theorem wrap_width_bound_amended (line : MarkdownLine) (max_width continuation_indent : Nat)
    (hcode : line.is_code_block = false) (hw : 10 ≤ max_width) :
    ∀ out ∈ wrap_single_line line max_width continuation_indent,
      wrapLineOK max_width continuation_indent (split_line_into_words line.line) out := by
  intro out hout
  unfold wrap_single_line at hout
  rw [if_neg (by simp [hcode]; omega)] at hout
  by_cases hwords : (split_line_into_words line.line).isEmpty
  · rw [if_pos hwords] at hout
    rw [List.mem_singleton] at hout
    subst hout
    rw [List.isEmpty_iff] at hwords
    refine ⟨hcode, [], [], ⟨[], [], by simp [hwords]⟩, Or.inl rfl, ?_, ?_⟩
    · rw [split_nil_text _ hwords]
      rfl
    · left
      rw [uwidthL, split_nil_text _ hwords]
      simp [uwidth]
  · rw [if_neg hwords] at hout
    have hne : wrapGo max_width continuation_indent
        (split_line_into_words line.line) [] 0 true ≠ [] :=
      wrapGo_ne_nil _ _ _ _ _ _ (fun _ => by simpa [List.isEmpty_iff] using hwords)
    rw [if_neg (by simpa [List.isEmpty_iff] using hne)] at hout
    refine wrapGo_ok max_width continuation_indent (split_line_into_words line.line)
      (split_line_into_words line.line) [] 0 true ?_ rfl ?_ ⟨[], rfl⟩ out hout
    · intro wd hwd
      rw [List.nil_append] at hwd
      exact split_content_ne_nil line.line wd hwd
    · left
      simp [sumW]

/-- C1 counterexample: wrapping `"• abc wonderful"` at width 10 with
the computed continuation indent 2 produces the display line
`"  wonderful"` of width 11 > 10, whose single word `"wonderful"` has
width 9 ≤ 10 — a line exceeding the target that is not a single word
wider than the target, refuting the unamended claim. -/
theorem wrap_width_bound_counterexample :
    calculate_continuation_indent ⟨[Span.raw "• abc wonderful".data]⟩ = 2 ∧
    (wrap_single_line ⟨⟨[Span.raw "• abc wonderful".data]⟩, false⟩ 10 2).map
      (fun m => textOfLine m.line) = ["• abc ".data, "  wonderful".data] ∧
    uwidth "  wonderful".data = 11 ∧
    uwidth "wonderful".data = 9 := by decide

/-- Witness for `wrap_width_bound_amended` at a concrete line, width
and indent. -/
theorem wrap_width_bound_amended_witness :
    MarkdownLine.is_code_block ⟨⟨[Span.raw "hello world".data]⟩, false⟩ = false ∧
    10 ≤ 10 ∧
    ∀ out ∈ wrap_single_line ⟨⟨[Span.raw "hello world".data]⟩, false⟩ 10 2,
      wrapLineOK 10 2 (split_line_into_words ⟨[Span.raw "hello world".data]⟩) out :=
  ⟨rfl, by decide,
   wrap_width_bound_amended ⟨⟨[Span.raw "hello world".data]⟩, false⟩ 10 2 rfl (by decide)⟩
